import Mathlib

/-!
# Verification of the Naver keyword client (src/app.py)

Shallow embedding of the core functions of `src/app.py` and proofs of the
frozen claims about them.  Strings are modelled as `List Char`; Python's
`None`-able JSON scalars as `Option`/a small `PyValue` type; the network is
modelled as a function from attempt index (or device) to an abstract
response, and the observable sleeping/request behaviour of the client as an
explicit event trace.  Floating-point quantities that the claims depend on
are integers in the source (retry delays, bid amounts); the one genuinely
float-valued sleep (`1.0 / calls_per_second`) is modelled as an abstract
pacing event without a duration, and `float` parsing of decimal strings is
modelled exactly by rationals.
-/

namespace NaverKeyword

/-! ## Python string primitives -/

/-- Whitespace recognised by Python's default `str.strip`, restricted to the
ASCII whitespace characters (the only whitespace this app's inputs contain). -/
def pyIsSpace (c : Char) : Bool :=
  c = ' ' || c = '\t' || c = '\n' || c = '\x0d' || c = '\x0b' || c = '\x0c'

/-- Python `str.strip()`: drop leading and trailing whitespace. -/
def pyStrip (s : List Char) : List Char :=
  ((s.dropWhile pyIsSpace).reverse.dropWhile pyIsSpace).reverse

/-- Python's unicode `str.isalnum`, restricted to the scripts this program
processes: ASCII letters and digits, Hangul compatibility jamo, Hangul jamo
and Hangul syllables. -/
def pyIsAlnum (c : Char) : Bool :=
  (('a' ≤ c && c ≤ 'z') || ('A' ≤ c && c ≤ 'Z') || ('0' ≤ c && c ≤ '9')
    || (0x3131 ≤ c.val && c.val ≤ 0x3163)
    || (0x1100 ≤ c.val && c.val ≤ 0x11FF)
    || (0xAC00 ≤ c.val && c.val ≤ 0xD7A3))

/-! ## `clean_keyword` (src/app.py lines 78-101) -/

/-- The literal string `'ㄱ-ㅎㅏ-ㅣ가-힣 .-_'` of line 93; Python's
`char in s` on it is membership among its characters. -/
def allowedLiteral : List Char := "ㄱ-ㅎㅏ-ㅣ가-힣 .-_".toList

/-- The character filter of line 93: `char.isalnum() or char in 'ㄱ-ㅎㅏ-ㅣ가-힣 .-_'`. -/
def keepChar (c : Char) : Bool :=
  pyIsAlnum c || allowedLiteral.contains c

/-- One pass of Python's `cleaned.replace('  ', ' ')`: scan left to right,
replace each non-overlapping occurrence of two spaces by one, continuing
after the replacement. -/
def replacePairSpace : List Char → List Char
  | [] => []
  | [c] => [c]
  | a :: b :: rest =>
    if a = ' ' && b = ' ' then ' ' :: replacePairSpace rest
    else a :: replacePairSpace (b :: rest)

/-- `'  ' in s` for Python: does the string contain two adjacent spaces? -/
def hasDoubleSpace : List Char → Bool
  | [] => false
  | [_] => false
  | a :: b :: rest => (a = ' ' && b = ' ') || hasDoubleSpace (b :: rest)

/-- The `while '  ' in cleaned: cleaned = cleaned.replace('  ', ' ')` loop of
lines 87-88, with explicit fuel.  Fuel `s.length` always suffices because each
iteration that fires strictly shortens the string. -/
def collapseLoop : Nat → List Char → List Char
  | 0, s => s
  | fuel + 1, s =>
    if hasDoubleSpace s then collapseLoop fuel (replacePairSpace s) else s

/-- `NaverKeywordAPI.clean_keyword` (lines 78-101): strip, collapse runs of
spaces, keep only allowed characters, strip, truncate to 50 and strip again. -/
def clean_keyword (keyword : List Char) : List Char :=
  if keyword = [] then []
  else
    let cleaned := pyStrip keyword
    let collapsed := collapseLoop cleaned.length cleaned
    let allowed_chars := collapsed.filter keepChar
    let result := pyStrip allowed_chars
    if result.length > 50 then pyStrip (result.take 50) else result

/-! ## Properties of the sanitizer (claim C1) -/

theorem rps_length_le : ∀ s : List Char, (replacePairSpace s).length ≤ s.length
  | [] => by simp [replacePairSpace]
  | [c] => by simp [replacePairSpace]
  | a :: b :: rest => by
    by_cases h : a = ' ' ∧ b = ' '
    · obtain ⟨ha, hb⟩ := h
      subst ha
      subst hb
      simp only [replacePairSpace, decide_True, Bool.and_self, if_pos, List.length_cons]
      have := rps_length_le rest
      omega
    · rw [replacePairSpace, if_neg (by simpa using h)]
      have := rps_length_le (b :: rest)
      simp only [List.length_cons] at *
      omega

theorem rps_length_lt : ∀ s : List Char, hasDoubleSpace s = true →
    (replacePairSpace s).length < s.length
  | [], h => by simp [hasDoubleSpace] at h
  | [c], h => by simp [hasDoubleSpace] at h
  | a :: b :: rest, h => by
    by_cases hab : a = ' ' ∧ b = ' '
    · obtain ⟨ha, hb⟩ := hab
      subst ha
      subst hb
      simp only [replacePairSpace, decide_True, Bool.and_self, if_pos, List.length_cons]
      have := rps_length_le rest
      omega
    · rw [replacePairSpace, if_neg (by simpa using hab)]
      have hd : hasDoubleSpace (b :: rest) = true := by
        rw [hasDoubleSpace] at h
        rcases Bool.or_eq_true_iff.mp h with h1 | h1
        · exact absurd ⟨by simpa using (Bool.and_eq_true_iff.mp h1).1,
            by simpa using (Bool.and_eq_true_iff.mp h1).2⟩ hab
        · exact h1
      have := rps_length_lt (b :: rest) hd
      simp only [List.length_cons] at *
      omega

theorem rps_subset : ∀ s : List Char, ∀ c ∈ replacePairSpace s, c ∈ s
  | [], c, hc => by simp [replacePairSpace] at hc
  | [d], c, hc => by simpa [replacePairSpace] using hc
  | a :: b :: rest, c, hc => by
    rw [replacePairSpace] at hc
    by_cases hab : a = ' ' ∧ b = ' '
    · rw [if_pos (by simp [hab.1, hab.2])] at hc
      rcases List.mem_cons.mp hc with h1 | h1
      · exact List.mem_cons.mpr (Or.inl (h1.trans hab.1.symm))
      · exact List.mem_cons.mpr (Or.inr (List.mem_cons.mpr (Or.inr (rps_subset rest c h1))))
    · rw [if_neg (by simpa using hab)] at hc
      rcases List.mem_cons.mp hc with h1 | h1
      · exact List.mem_cons.mpr (Or.inl h1)
      · exact List.mem_cons.mpr (Or.inr (rps_subset (b :: rest) c h1))

theorem hasDoubleSpace_iff_pair : ∀ s : List Char,
    hasDoubleSpace s = true ↔ [' ', ' '] <:+: s
  | [] => by
    simp only [hasDoubleSpace]
    constructor
    · intro h; exact absurd h (by simp)
    · intro h; exact absurd (h.length_le) (by simp)
  | [c] => by
    simp only [hasDoubleSpace]
    constructor
    · intro h; exact absurd h (by simp)
    · intro h; exact absurd (h.length_le) (by simp)
  | a :: b :: rest => by
    rw [hasDoubleSpace]
    constructor
    · intro h
      rcases Bool.or_eq_true_iff.mp h with h1 | h1
      · have ha : a = ' ' := by simpa using (Bool.and_eq_true_iff.mp h1).1
        have hb : b = ' ' := by simpa using (Bool.and_eq_true_iff.mp h1).2
        subst ha; subst hb
        exact ⟨[], rest, rfl⟩
      · exact List.infix_cons ((hasDoubleSpace_iff_pair (b :: rest)).mp h1)
    · intro h
      rcases List.infix_cons_iff.mp h with h1 | h1
      · rcases h1 with ⟨t, ht⟩
        simp only [List.cons_append, List.nil_append, List.cons.injEq] at ht
        obtain ⟨h2, h3, h4⟩ := ht
        subst h2
        subst h3
        apply Bool.or_eq_true_iff.mpr
        exact Or.inl (by simp)
      · exact Bool.or_eq_true_iff.mpr
          (Or.inr ((hasDoubleSpace_iff_pair (b :: rest)).mpr h1))

theorem hasDoubleSpace_mono {t s : List Char} (h : t <:+: s)
    (ht : hasDoubleSpace t = true) : hasDoubleSpace s = true :=
  (hasDoubleSpace_iff_pair s).mpr (((hasDoubleSpace_iff_pair t).mp ht).trans h)

theorem collapseLoop_noDouble : ∀ fuel : Nat, ∀ s : List Char, s.length ≤ fuel →
    hasDoubleSpace (collapseLoop fuel s) = false := by
  intro fuel
  induction fuel with
  | zero =>
    intro s hs
    have : s = [] := List.length_eq_zero.mp (Nat.le_zero.mp hs)
    subst this
    simp [collapseLoop, hasDoubleSpace]
  | succ f ih =>
    intro s hs
    rw [collapseLoop]
    by_cases h : hasDoubleSpace s = true
    · rw [if_pos h]
      exact ih _ (by have := rps_length_lt s h; omega)
    · rw [if_neg (by simpa using h)]
      simpa using h

theorem collapseLoop_id (fuel : Nat) (s : List Char)
    (h : hasDoubleSpace s = false) : collapseLoop fuel s = s := by
  cases fuel with
  | zero => rfl
  | succ f => rw [collapseLoop, if_neg (by simp [h])]

theorem collapseLoop_subset : ∀ fuel : Nat, ∀ s : List Char,
    ∀ c ∈ collapseLoop fuel s, c ∈ s := by
  intro fuel
  induction fuel with
  | zero => intro s c hc; simpa [collapseLoop] using hc
  | succ f ih =>
    intro s c hc
    rw [collapseLoop] at hc
    by_cases h : hasDoubleSpace s = true
    · rw [if_pos h] at hc
      exact rps_subset s c (ih _ c hc)
    · rwa [if_neg (by simpa using h)] at hc

theorem pyStrip_part (s : List Char) : pyStrip s <:+: s := by
  unfold pyStrip
  have h1 : s.dropWhile pyIsSpace <:+ s := List.dropWhile_suffix _
  have h2 : (s.dropWhile pyIsSpace).reverse.dropWhile pyIsSpace <:+
      (s.dropWhile pyIsSpace).reverse := List.dropWhile_suffix _
  have h3 : ((s.dropWhile pyIsSpace).reverse.dropWhile pyIsSpace).reverse <:+:
      s.dropWhile pyIsSpace := by
    apply List.reverse_infix.mp
    simpa using List.IsSuffix.isInfix h2
  exact h3.trans ( List.IsSuffix.isInfix h1)

theorem pyStrip_subset {s : List Char} {c : Char} (h : c ∈ pyStrip s) : c ∈ s :=
  (pyStrip_part s).subset h

theorem pyStrip_length_le (s : List Char) : (pyStrip s).length ≤ s.length :=
  (pyStrip_part s).length_le

theorem dropWhile_idem (p : Char → Bool) (l : List Char) :
    (l.dropWhile p).dropWhile p = l.dropWhile p := by
  cases h : l.dropWhile p with
  | nil => simp
  | cons c rest =>
    have hc : p c = false := by
      have hh := List.head?_dropWhile_not p l
      rw [h] at hh
      simpa using hh
    simp [List.dropWhile_cons, hc]

theorem pyStrip_idem (s : List Char) : pyStrip (pyStrip s) = pyStrip s := by
  unfold pyStrip
  set u := s.dropWhile pyIsSpace with hu
  set w := u.reverse.dropWhile pyIsSpace with hw
  have hlast : ∀ c, w.getLast? = some c → pyIsSpace c = false := by
    intro c hc
    have hwne : w ≠ [] := by
      intro h
      rw [h] at hc
      simp at hc
    obtain ⟨pre, hpre⟩ :=
      (List.dropWhile_suffix pyIsSpace : u.reverse.dropWhile pyIsSpace <:+ u.reverse)
    have h2 : u.reverse.getLast? = w.getLast? := by
      rw [← hpre]
      exact List.getLast?_append_of_ne_nil _ hwne
    rw [List.getLast?_reverse] at h2
    have h3 := List.head?_dropWhile_not pyIsSpace s
    rw [← hu] at h3
    rw [h2, hc] at h3
    simpa using h3
  have h1 : w.reverse.dropWhile pyIsSpace = w.reverse := by
    cases hwr : w.reverse with
    | nil => simp
    | cons c rest =>
      have hgl : w.getLast? = some c := by
        rw [← List.head?_reverse, hwr]
        rfl
      have hc := hlast c hgl
      rw [List.dropWhile_cons, hc]
      simp
  rw [h1, List.reverse_reverse, dropWhile_idem]

theorem clean_keyword_allAllowed (s : List Char) :
    ∀ c ∈ clean_keyword s, keepChar c = true := by
  intro c hc
  unfold clean_keyword at hc
  by_cases hs : s = []
  · rw [if_pos hs] at hc
    simp at hc
  · rw [if_neg hs] at hc
    simp only at hc
    set base := (collapseLoop (pyStrip s).length (pyStrip s)).filter keepChar with hbase
    by_cases hlen : (pyStrip base).length > 50
    · rw [if_pos hlen] at hc
      have := pyStrip_subset (( List.take_prefix 50 (pyStrip base)).subset (pyStrip_subset hc))
      exact List.of_mem_filter this
    · rw [if_neg hlen] at hc
      exact List.of_mem_filter (pyStrip_subset hc)

theorem clean_keyword_stripped (s : List Char) :
    pyStrip (clean_keyword s) = clean_keyword s := by
  unfold clean_keyword
  by_cases hs : s = []
  · rw [if_pos hs]
    rfl
  · rw [if_neg hs]
    simp only
    set base := (collapseLoop (pyStrip s).length (pyStrip s)).filter keepChar with hbase
    by_cases hlen : (pyStrip base).length > 50
    · rw [if_pos hlen, pyStrip_idem]
    · rw [if_neg hlen, pyStrip_idem]

theorem clean_keyword_length_le (s : List Char) : (clean_keyword s).length ≤ 50 := by
  unfold clean_keyword
  by_cases hs : s = []
  · rw [if_pos hs]
    simp
  · rw [if_neg hs]
    simp only
    set base := (collapseLoop (pyStrip s).length (pyStrip s)).filter keepChar with hbase
    by_cases hlen : (pyStrip base).length > 50
    · rw [if_pos hlen]
      have h1 := pyStrip_length_le ((pyStrip base).take 50)
      have h2 : ((pyStrip base).take 50).length ≤ 50 := by simp
      omega
    · rw [if_neg hlen]
      omega

theorem clean_keyword_noDouble_of_allAllowed (t : List Char)
    (h : ∀ c ∈ t, keepChar c = true) :
    hasDoubleSpace (clean_keyword t) = false := by
  unfold clean_keyword
  by_cases ht : t = []
  · rw [if_pos ht]
    rfl
  · rw [if_neg ht]
    simp only
    have hall : ∀ c ∈ collapseLoop (pyStrip t).length (pyStrip t), keepChar c = true :=
      fun c hc => h c (pyStrip_subset (collapseLoop_subset _ _ c hc))
    rw [List.filter_eq_self.mpr hall]
    set coll := collapseLoop (pyStrip t).length (pyStrip t) with hcoll
    have hnd : hasDoubleSpace coll = false :=
      collapseLoop_noDouble _ _ (le_refl _)
    have hmono : ∀ u : List Char, u <:+: coll → hasDoubleSpace u = false := by
      intro u hu
      cases hcase : hasDoubleSpace u with
      | false => rfl
      | true => exact absurd (hasDoubleSpace_mono hu hcase) (by simp [hnd])
    by_cases hlen : (pyStrip coll).length > 50
    · rw [if_pos hlen]
      exact hmono _ ((pyStrip_part _).trans
        (( List.IsPrefix.isInfix ( List.take_prefix 50 (pyStrip coll))).trans (pyStrip_part coll)))
    · rw [if_neg hlen]
      exact hmono _ (pyStrip_part coll)

theorem clean_keyword_eq_self (u : List Char)
    (hall : ∀ c ∈ u, keepChar c = true)
    (hstr : pyStrip u = u)
    (hnd : hasDoubleSpace u = false)
    (hlen : u.length ≤ 50) : clean_keyword u = u := by
  unfold clean_keyword
  by_cases hu : u = []
  · rw [if_pos hu, hu]
  · rw [if_neg hu]
    simp only
    rw [hstr, collapseLoop_id _ _ hnd, List.filter_eq_self.mpr hall, hstr]
    rw [if_neg (by omega)]

/-- C1: the claim `clean(clean(s)) = clean(s)` is FALSE: dropping a
disallowed character that sits between two spaces creates a new double space
after the collapse pass, so a second application of `clean_keyword` shrinks
the string further.  Concretely `clean("a @ b") = "a  b"` but
`clean("a  b") = "a b"`. -/
theorem C1_counterexample :
    clean_keyword (clean_keyword "a @ b".toList) ≠ clean_keyword "a @ b".toList := by
  decide

/-- C1 (amended): `clean_keyword` becomes idempotent after one extra
application: for every string `s`,
`clean_keyword (clean_keyword (clean_keyword s)) = clean_keyword (clean_keyword s)`;
equivalently, `clean_keyword ∘ clean_keyword` is idempotent. -/
theorem C1_theorem (s : List Char) :
    clean_keyword (clean_keyword (clean_keyword s)) = clean_keyword (clean_keyword s) :=
  clean_keyword_eq_self _
    (clean_keyword_allAllowed _)
    (clean_keyword_stripped _)
    (clean_keyword_noDouble_of_allAllowed _ (clean_keyword_allAllowed _))
    (clean_keyword_length_le _)

/-! ## `safe_get_number` (src/app.py lines 246-265) and claim C5 -/

/-- Numeric value of a string of ASCII digits. -/
def digitsVal (s : List Char) : ℕ :=
  s.foldl (fun acc c => 10 * acc + (c.toNat - 48)) 0

/-- Floor base-2 logarithm of a natural number, with explicit fuel
(`natLog2F n n` always has enough: the argument halves every step). -/
def natLog2F : ℕ → ℕ → ℕ
  | 0, _ => 0
  | fuel + 1, n => if n ≥ 2 then natLog2F fuel (n / 2) + 1 else 0

/-- Floor base-2 logarithm of a natural number. -/
def natLog2 (n : ℕ) : ℕ := natLog2F n n

/-- `a < 2^k` for a rational `a`, decided by cross-multiplication with the
(positive) denominator. -/
def ratLtPow2 (a : ℚ) (k : ℤ) : Bool :=
  match k with
  | .ofNat n => a.num < (a.den : ℤ) * ((2 ^ n : ℕ) : ℤ)
  | .negSucc n => a.num * ((2 ^ (n + 1) : ℕ) : ℤ) < (a.den : ℤ)

/-- Floor base-2 logarithm of a positive rational, the unique `e` with
`2^e ≤ a < 2^(e+1)`: the difference of the numerator's and denominator's
logarithms overshoots by at most one, corrected by one comparison. -/
def ratLog2 (a : ℚ) : ℤ :=
  if ratLtPow2 a ((natLog2 a.num.natAbs : ℤ) - (natLog2 a.den : ℤ)) then
    (natLog2 a.num.natAbs : ℤ) - (natLog2 a.den : ℤ) - 1
  else (natLog2 a.num.natAbs : ℤ) - (natLog2 a.den : ℤ)

/-- The exponent of the least significant mantissa bit of the IEEE binary64
value nearest to the positive rational `a`: 52 below the leading bit for
normal magnitudes, clamped at the fixed subnormal position `2^-1074`. -/
def mantExp (a : ℚ) : ℤ :=
  if ratLog2 a - 52 < -1074 then -1074 else ratLog2 a - 52

/-- `a / 2^k` as an integer fraction `(numerator, positive denominator)`. -/
def scaledNumDen (a : ℚ) (k : ℤ) : ℤ × ℤ :=
  match k with
  | .ofNat n => (a.num, (a.den : ℤ) * ((2 ^ n : ℕ) : ℤ))
  | .negSucc n => (a.num * ((2 ^ (n + 1) : ℕ) : ℤ), (a.den : ℤ))

/-- Round the fraction `N / D` (with `D > 0`) to the nearest integer, ties
to even, using only integer arithmetic (`Int.fdiv` is floor division). -/
def roundHalfEvenInt (N D : ℤ) : ℤ :=
  if 2 * (N - N.fdiv D * D) < D then N.fdiv D
  else if D < 2 * (N - N.fdiv D * D) then N.fdiv D + 1
  else if N.fdiv D % 2 = 0 then N.fdiv D else N.fdiv D + 1

/-- The rational `m * 2^k`. -/
def doubleOfME (m k : ℤ) : ℚ :=
  match k with
  | .ofNat n => ((m * ((2 ^ n : ℕ) : ℤ) : ℤ) : ℚ)
  | .negSucc n => Rat.divInt m ((2 ^ (n + 1) : ℕ) : ℤ)

/-- Absolute value of a rational. -/
def absQ (q : ℚ) : ℚ := if q < 0 then -q else q

/-- Round an exact rational to the nearest IEEE binary64 double (round to
nearest, ties to even, subnormals included): the mantissa is the half-even
rounding of `|q| / 2^mantExp`, and the result overflows to infinity —
returned as `none` — exactly when the rounded magnitude reaches `2^1024`
(the comparison is taken after scaling by `2^1074` so that it stays in the
integers).  `none` is also how the callers experience infinity: both call
sites immediately apply `int()` to the float, and `int(inf)` raises
`OverflowError`, caught by the enclosing bare `except` exactly like a parse
failure. -/
def roundToDouble (q : ℚ) : Option ℚ :=
  if q = 0 then some 0
  else
    if (roundHalfEvenInt (scaledNumDen (absQ q) (mantExp (absQ q))).1
          (scaledNumDen (absQ q) (mantExp (absQ q))).2).toNat *
        2 ^ (mantExp (absQ q) + 1074).toNat < 2 ^ 2098 then
      some (if q < 0
        then -(doubleOfME
          (roundHalfEvenInt (scaledNumDen (absQ q) (mantExp (absQ q))).1
            (scaledNumDen (absQ q) (mantExp (absQ q))).2) (mantExp (absQ q)))
        else doubleOfME
          (roundHalfEvenInt (scaledNumDen (absQ q) (mantExp (absQ q))).1
            (scaledNumDen (absQ q) (mantExp (absQ q))).2) (mantExp (absQ q)))
    else none

/-- Python `float(str)` restricted to the strings this program can hand to
it (an optional sign followed by ASCII digits and dots): accepts
`sign? digits [ '.' digits ]` with at least one digit and rejects everything
else (Python raises `ValueError`, which every caller catches).  The exact
decimal value is then rounded to the nearest IEEE binary64 double by
`roundToDouble`; an overflowing magnitude — `float` returning `inf`, which
both call sites immediately feed to `int()`, raising an `OverflowError`
caught by the same `except` — comes back as `none` like a parse failure. -/
def pyParseFloat (s : List Char) : Option ℚ :=
  let (neg, rest) :=
    match s with
    | '-' :: r => (true, r)
    | '+' :: r => (false, r)
    | r => (false, r)
  let intPart := rest.takeWhile Char.isDigit
  let rest2 := rest.dropWhile Char.isDigit
  let mag : Option ℚ :=
    match rest2 with
    | [] => if intPart = [] then none else some (digitsVal intPart)
    | '.' :: fracPart =>
      if fracPart.all Char.isDigit ∧ (intPart ≠ [] ∨ fracPart ≠ []) then
        some ((digitsVal intPart : ℚ) + (digitsVal fracPart : ℚ) / (10 : ℚ) ^ fracPart.length)
      else none
    | _ => none
  match mag with
  | some q => roundToDouble (if neg then -q else q)
  | none => none

/-- Python `int(x)` on a float: truncation toward zero. -/
def pyIntTrunc (q : ℚ) : ℤ := if q < 0 then -⌊(-q : ℚ)⌋ else ⌊q⌋

/-- Python `value.split(ch)[-1]`: the last piece of the split. -/
def splitLast (ch : Char) (s : List Char) : List Char := (s.splitOn ch).getLastD []

/-- Python values as this program receives them from JSON fields. -/
inductive PyValue
  | none
  | int (n : ℤ)
  | float (q : ℚ)
  | str (s : List Char)
deriving DecidableEq

/-- `safe_get_number` (lines 246-265): `None` → default; `int`/`float` →
truncate to int; strings → cut at the last `'<'` when one is present, else at
the last `'>'` when one is present, strip, keep only digits and `'.'`, parse
as float and truncate; every failure → default. -/
def safe_get_number (value : PyValue) (default : ℤ) : ℤ :=
  match value with
  | .none => default
  | .int n => n
  | .float q => pyIntTrunc q
  | .str s =>
    let s1 :=
      if s.contains '<' then pyStrip (splitLast '<' s)
      else if s.contains '>' then pyStrip (splitLast '>' s)
      else s
    let clean_value := s1.filter (fun c => c.isDigit || c = '.')
    if clean_value ≠ [] then
      match pyParseFloat clean_value with
      | some q => pyIntTrunc q
      | none => default
    else default

/-- The substring strictly after the last character satisfying `p` (the
whole string when no character satisfies `p`). -/
def afterLastSuch (p : Char → Bool) (s : List Char) : List Char :=
  (s.reverse.takeWhile (fun c => !(p c))).reverse

/-- `safeNumber` exactly as claim C5 words it: a string containing `'<'` or
`'>'` keeps only the substring after the last occurrence of SUCH a character
(i.e. the last occurrence of either one). -/
def safeNumberClaim (value : PyValue) (default : ℤ) : ℤ :=
  match value with
  | .none => default
  | .int n => n
  | .float q => pyIntTrunc q
  | .str s =>
    let s1 :=
      if s.contains '<' || s.contains '>' then
        pyStrip (afterLastSuch (fun c => c == '<' || c == '>') s)
      else s
    let clean_value := s1.filter (fun c => c.isDigit || c = '.')
    if clean_value ≠ [] then
      match pyParseFloat clean_value with
      | some q => pyIntTrunc q
      | none => default
    else default

/-- `safeNumber` as amended: when the string contains `'<'` the cut happens
after the last `'<'` (even if a `'>'` occurs later); only otherwise, when it
contains `'>'`, after the last `'>'`. -/
def safeNumberAmended (value : PyValue) (default : ℤ) : ℤ :=
  match value with
  | .none => default
  | .int n => n
  | .float q => pyIntTrunc q
  | .str s =>
    let s1 :=
      if s.contains '<' then pyStrip (afterLastSuch (fun c => c == '<') s)
      else if s.contains '>' then pyStrip (afterLastSuch (fun c => c == '>') s)
      else s
    let clean_value := s1.filter (fun c => c.isDigit || c = '.')
    if clean_value ≠ [] then
      match pyParseFloat clean_value with
      | some q => pyIntTrunc q
      | none => default
    else default

theorem takeWhile_append_singleton_neg {p : Char → Bool} {c : Char}
    (hc : p c = false) (l : List Char) :
    ((l ++ [c]).takeWhile p) = l.takeWhile p := by
  rw [List.takeWhile_append]
  by_cases h : (l.takeWhile p).length = l.length
  · rw [if_pos h]
    have heq : l.takeWhile p = l := ( List.takeWhile_prefix p).eq_of_length h
    simp [List.takeWhile_cons, hc, heq]
  · rw [if_neg h]

theorem splitOnP_length_two (p : Char → Bool) : ∀ s : List Char,
    (∃ c ∈ s, p c = true) → 2 ≤ (List.splitOnP p s).length
  | [], h => by simp at h
  | c :: s, h => by
    rw [List.splitOnP_cons]
    by_cases hc : p c = true
    · rw [if_pos hc]
      have hne := List.splitOnP_ne_nil p s
      have h1 : 1 ≤ (List.splitOnP p s).length := by
        cases hh : List.splitOnP p s with
        | nil => exact absurd hh hne
        | cons _ _ => simp
      simp only [List.length_cons]
      omega
    · rw [if_neg hc, List.length_modifyHead]
      apply splitOnP_length_two p s
      rcases h with ⟨d, hd, hpd⟩
      rcases List.mem_cons.mp hd with h1 | h1
      · exact absurd (h1 ▸ hpd) hc
      · exact ⟨d, h1, hpd⟩

theorem getLastD_modifyHead_of_two {f : List Char → List Char}
    {l : List (List Char)} (h : 2 ≤ l.length) :
    (l.modifyHead f).getLastD [] = l.getLastD [] := by
  cases l with
  | nil => simp at h
  | cons x t =>
    cases t with
    | nil => simp at h
    | cons y u =>
      rw [List.modifyHead_cons, List.getLastD_cons, List.getLastD_cons,
        List.getLastD_cons, List.getLastD_cons]

theorem splitLast_eq_afterLast (ch : Char) : ∀ s : List Char,
    splitLast ch s = afterLastSuch (fun c => c == ch) s
  | [] => by simp [splitLast, afterLastSuch, List.splitOn_nil]
  | c :: s => by
    have ih := splitLast_eq_afterLast ch s
    unfold splitLast afterLastSuch at ih ⊢
    rw [List.splitOn] at ih ⊢
    rw [List.splitOnP_cons]
    by_cases hc : c = ch
    · subst hc
      rw [if_pos (by simp), List.getLastD_cons, List.reverse_cons,
        takeWhile_append_singleton_neg (by simp)]
      exact ih
    · rw [if_neg (by simpa using hc), List.reverse_cons]
      by_cases hmem : ch ∈ s
      · have h2 : 2 ≤ (List.splitOnP (fun x => x == ch) s).length :=
          splitOnP_length_two _ s ⟨ch, hmem, by simp⟩
        rw [getLastD_modifyHead_of_two h2]
        have hne : (s.reverse.takeWhile fun c => !(c == ch)).length ≠ s.reverse.length := by
          intro hlen
          have heq : s.reverse.takeWhile (fun c => !(c == ch)) = s.reverse :=
            ( List.takeWhile_prefix _).eq_of_length hlen
          have hall := List.takeWhile_eq_self_iff.mp heq
          have := hall ch (by simpa using hmem)
          simp at this
        rw [List.takeWhile_append, if_neg hne]
        exact ih
      · rw [List.splitOnP_eq_single _ _ (by
          intro x hx
          simp only [beq_iff_eq]
          intro hxe
          exact hmem (hxe ▸ hx))]
        simp only [List.modifyHead_cons, List.getLastD_cons]
        have hall : ∀ x ∈ s.reverse ++ [c], (fun d => !(d == ch)) x = true := by
          intro x hx
          rcases List.mem_append.mp hx with h1 | h1
          · simp only [Bool.not_eq_true', beq_eq_false_iff_ne, ne_eq]
            intro hxe
            exact hmem (hxe ▸ List.mem_reverse.mp h1)
          · simp only [List.mem_singleton] at h1
            subst h1
            simpa using hc
        rw [List.takeWhile_eq_self_iff.mpr hall]
        simp

set_option maxRecDepth 100000 in
/-- C5: the claim's description is FALSE for strings containing both `'<'`
and `'>'`: the code cuts after the last `'<'` whenever a `'<'` is present
(the `elif`), not after the last occurrence of either character.  On
`"<5>2"` the code yields 52 while the claimed rule yields 2. -/
theorem C5_counterexample :
    safe_get_number (.str "<5>2".toList) 0 = 52 ∧
      safeNumberClaim (.str "<5>2".toList) 0 = 2 := by
  constructor <;> decide

set_option maxRecDepth 100000 in
/-- C5 (amended): `safe_get_number` is total and equals the amended
specification (cut after the last `'<'` when one is present, else after the
last `'>'` when one is present, then keep digits and dots, parse, truncate,
defaulting on failure), and satisfies all six enumerated examples. -/
theorem C5_theorem :
    (∀ v d, safe_get_number v d = safeNumberAmended v d) ∧
      safe_get_number .none 0 = 0 ∧
      safe_get_number (.str "<10".toList) 0 = 10 ∧
      safe_get_number (.str ">100".toList) 0 = 100 ∧
      safe_get_number (.str "abc".toList) 0 = 0 ∧
      safe_get_number (.int 42) 0 = 42 ∧
      safe_get_number (.float (39 / 10)) 0 = 3 := by
  refine ⟨fun v d => ?_, rfl, by decide, by decide, by decide, rfl, ?_⟩
  · cases v with
    | none => rfl
    | int n => rfl
    | float q => rfl
    | str s =>
      simp only [safe_get_number, safeNumberAmended, splitLast_eq_afterLast]
  · show pyIntTrunc (39 / 10) = 3
    rw [pyIntTrunc, if_neg (by norm_num)]
    norm_num [Int.floor_eq_iff]

/-! ## `safe_format_bid` (src/app.py lines 280-292) and claim C10 -/

/-- Decimal digits of a natural number, least significant first (explicit
fuel; `n + 1` always suffices). -/
def natDecimalAux : ℕ → ℕ → List Char
  | 0, _ => []
  | fuel + 1, n =>
    if n < 10 then [Char.ofNat (48 + n)]
    else Char.ofNat (48 + n % 10) :: natDecimalAux fuel (n / 10)

/-- Decimal digits of a natural number, least significant first. -/
def natDecimalRev (n : ℕ) : List Char := natDecimalAux (n + 1) n

/-- Insert a `','` after every three characters (input is least significant
first). -/
def group3 : List Char → List Char
  | a :: b :: c :: d :: rest => a :: b :: c :: ',' :: group3 (d :: rest)
  | l => l

/-- Python `f"{n:,}"` on an int: thousands-grouped decimal string. -/
def pyGroupInt (n : ℤ) : List Char :=
  (if n < 0 then ['-'] else []) ++ (group3 (natDecimalRev n.natAbs)).reverse

/-- Python `s.replace(ch, '', 1)`: remove the first occurrence of `ch`. -/
def removeFirst (ch : Char) : List Char → List Char
  | [] => []
  | c :: rest => if c = ch then rest else c :: removeFirst ch rest

/-- Python `s.isdigit()` for ASCII content: non-empty and all digits. -/
def pyIsDigitStr (s : List Char) : Bool := !s.isEmpty && s.all Char.isDigit

/-- `bid is None`. -/
def pyIsNone : PyValue → Bool
  | .none => true
  | _ => false

/-- `bid == ""` (true only for the empty string; Python never equates a
number with a string). -/
def pyEqEmptyStr : PyValue → Bool
  | .str [] => true
  | _ => false

/-- `bid == 0` (true for the int 0 and the float 0.0; never for strings). -/
def pyEqZeroNum : PyValue → Bool
  | .int n => n = 0
  | .float q => q = 0
  | _ => false

/-- `safe_format_bid` (lines 280-292): `None`, `""` and the number `0` give
`"-"`; positive numbers are truncated and thousands-grouped; non-positive
numbers give `"-"`; other strings are cleaned of commas and spaces, prechecked
by `isdigit` after removing one `'.'` and one `'-'`, parsed as float,
truncated and thousands-grouped; every failure gives `"-"`. -/
def safe_format_bid (bid : PyValue) : List Char :=
  if pyIsNone bid || pyEqEmptyStr bid || pyEqZeroNum bid then "-".toList
  else
    match bid with
    | .none => "-".toList
    | .int n => if 0 < n then pyGroupInt n else "-".toList
    | .float q => if 0 < q then pyGroupInt (pyIntTrunc q) else "-".toList
    | .str s =>
      let bid_str := (s.filter (fun c => c ≠ ',')).filter (fun c => c ≠ ' ')
      if pyIsDigitStr (removeFirst '-' (removeFirst '.' bid_str)) then
        match pyParseFloat bid_str with
        | some q => pyGroupInt (pyIntTrunc q)
        | none => "-".toList
      else "-".toList

theorem natDecimalRev_ne_nil (n : ℕ) : natDecimalRev n ≠ [] := by
  rw [natDecimalRev, natDecimalAux]
  by_cases h : n < 10
  · rw [if_pos h]
    simp
  · rw [if_neg h]
    simp

theorem group3_ne_nil {l : List Char} (h : l ≠ []) : group3 l ≠ [] := by
  match l with
  | [] => exact absurd rfl h
  | [a] => simp [group3]
  | [a, b] => simp [group3]
  | [a, b, c] => simp [group3]
  | a :: b :: c :: d :: rest => simp [group3]

theorem removeFirst_of_not_mem {ch : Char} : ∀ {s : List Char}, ch ∉ s →
    removeFirst ch s = s
  | [], _ => rfl
  | c :: rest, h => by
    rw [removeFirst,
      if_neg (fun hc : c = ch => h (by rw [← hc]; exact List.mem_cons_self c rest))]
    rw [removeFirst_of_not_mem (fun hm => h (List.mem_cons_of_mem c hm))]

theorem natLog2F_spec : ∀ fuel n : ℕ, n ≠ 0 → n ≤ fuel →
    2 ^ natLog2F fuel n ≤ n ∧ n < 2 ^ (natLog2F fuel n + 1) := by
  intro fuel
  induction fuel with
  | zero => intro n hn hle; omega
  | succ f ih =>
    intro n hn hle
    rw [natLog2F]
    by_cases h2 : n ≥ 2
    · rw [if_pos h2]
      obtain ⟨hr1, hr2⟩ := ih (n / 2) (by omega) (by omega)
      constructor
      · rw [pow_succ]
        omega
      · rw [pow_succ]
        omega
    · rw [if_neg h2]
      constructor
      · simpa using Nat.one_le_iff_ne_zero.mpr hn
      · simpa using (by omega : n < 2)

theorem natLog2_spec (n : ℕ) (hn : n ≠ 0) :
    2 ^ natLog2 n ≤ n ∧ n < 2 ^ (natLog2 n + 1) :=
  natLog2F_spec n n hn (le_refl n)

theorem natLog2_one : natLog2 1 = 0 := rfl

theorem roundHalfEvenInt_den_one (N : ℤ) : roundHalfEvenInt N 1 = N := by
  rw [roundHalfEvenInt, Int.fdiv_one]
  rw [if_pos (by omega)]

theorem ratLtPow2_natCast (a : ℚ) (k : ℕ) :
    ratLtPow2 a (k : ℤ) =
      decide (a.num < (a.den : ℤ) * ((2 ^ k : ℕ) : ℤ)) := rfl

theorem ratLog2_natCast (n : ℕ) (hn : n ≠ 0) :
    ratLog2 ((n : ℕ) : ℚ) = (natLog2 n : ℤ) := by
  rw [ratLog2, Rat.num_natCast, Rat.den_natCast, Int.natAbs_ofNat, natLog2_one]
  simp only [Nat.cast_zero, sub_zero]
  rw [if_neg ?hne]
  case hne =>
    intro hlt
    rw [ratLtPow2_natCast, decide_eq_true_eq, Rat.num_natCast, Rat.den_natCast] at hlt
    have hspec := (natLog2_spec n hn).1
    have hcast : ((2 ^ natLog2 n : ℕ) : ℤ) ≤ ((n : ℕ) : ℤ) := by exact_mod_cast hspec
    push_cast at hlt hcast
    omega

theorem roundToDouble_natCast (n : ℕ) (h : n < 2 ^ 53) :
    roundToDouble ((n : ℕ) : ℚ) = some ((n : ℕ) : ℚ) := by
  by_cases hn : n = 0
  · subst hn
    simp [roundToDouble]
  · have hnQ : ((n : ℚ)) ≠ 0 := Nat.cast_ne_zero.mpr hn
    have hpos : (0 : ℚ) ≤ (n : ℚ) := by positivity
    have habs : absQ (n : ℚ) = (n : ℚ) := by
      rw [absQ, if_neg (not_lt.mpr hpos)]
    rw [roundToDouble, if_neg hnQ, habs]
    have hl52 : natLog2 n ≤ 52 := by
      have hs := (natLog2_spec n hn).1
      by_contra hgt
      push_neg at hgt
      have hmono : 2 ^ 53 ≤ 2 ^ natLog2 n :=
        Nat.pow_le_pow_right (by norm_num) (by omega)
      omega
    have hme : mantExp (n : ℚ) = (natLog2 n : ℤ) - 52 := by
      rw [mantExp, ratLog2_natCast n hn, if_neg (by omega)]
    rw [hme]
    have hlt1024 : n < 2 ^ 1024 :=
      lt_of_lt_of_le h (Nat.pow_le_pow_right (by norm_num) (by norm_num))
    rcases Nat.lt_or_ge (natLog2 n) 52 with hlt | hge
    · have hk : (natLog2 n : ℤ) - 52 = Int.negSucc (51 - natLog2 n) := by
        rw [Int.negSucc_eq]
        omega
      rw [hk]
      have hexp : 51 - natLog2 n + 1 = 52 - natLog2 n := by omega
      have hsnd : scaledNumDen (n : ℚ) (Int.negSucc (51 - natLog2 n)) =
          ((n : ℤ) * ((2 ^ (52 - natLog2 n) : ℕ) : ℤ), 1) := by
        simp only [scaledNumDen, Rat.num_natCast, Rat.den_natCast, Nat.cast_one, hexp]
      rw [hsnd]
      simp only [roundHalfEvenInt_den_one]
      have hm : (n : ℤ) * ((2 ^ (52 - natLog2 n) : ℕ) : ℤ) =
          ((n * 2 ^ (52 - natLog2 n) : ℕ) : ℤ) := by push_cast; ring
      have htn : ((n : ℤ) * ((2 ^ (52 - natLog2 n) : ℕ) : ℤ)).toNat =
          n * 2 ^ (52 - natLog2 n) := by rw [hm, Int.toNat_natCast]
      have hke : Int.negSucc (51 - natLog2 n) + 1074 =
          ((1022 + natLog2 n : ℕ) : ℤ) := by
        rw [Int.negSucc_eq]
        push_cast
        omega
      have hcond : ((n : ℤ) * ((2 ^ (52 - natLog2 n) : ℕ) : ℤ)).toNat *
          2 ^ (Int.negSucc (51 - natLog2 n) + 1074).toNat < 2 ^ 2098 := by
        rw [htn, hke, Int.toNat_natCast, mul_assoc, ← pow_add]
        rw [show 52 - natLog2 n + (1022 + natLog2 n) = 1074 by omega]
        calc n * 2 ^ 1074 < 2 ^ 1024 * 2 ^ 1074 :=
              mul_lt_mul_of_pos_right hlt1024 (pow_pos (by norm_num) 1074)
          _ = 2 ^ 2098 := by rw [← pow_add]
      have hval2 : doubleOfME ((n : ℤ) * ((2 ^ (52 - natLog2 n) : ℕ) : ℤ))
          (Int.negSucc (51 - natLog2 n)) = (n : ℚ) := by
        simp only [doubleOfME, hexp]
        rw [Rat.divInt_eq_div]
        push_cast
        rw [mul_div_assoc, div_self (by positivity), mul_one]
      rw [if_pos hcond, if_neg (not_lt.mpr hpos), hval2]
    · have hl : natLog2 n = 52 := by omega
      have hk : (natLog2 n : ℤ) - 52 = Int.ofNat 0 := by
        rw [hl]
        norm_num
      rw [hk]
      have hsnd : scaledNumDen (n : ℚ) (Int.ofNat 0) = ((n : ℤ), 1) := by
        simp [scaledNumDen, Rat.num_natCast, Rat.den_natCast]
      rw [hsnd]
      simp only [roundHalfEvenInt_den_one]
      have hcond : ((n : ℤ)).toNat * 2 ^ ((Int.ofNat 0) + 1074).toNat < 2 ^ 2098 := by
        rw [Int.toNat_natCast]
        rw [show ((Int.ofNat 0) + 1074).toNat = 1074 by rfl]
        calc n * 2 ^ 1074 < 2 ^ 1024 * 2 ^ 1074 :=
              mul_lt_mul_of_pos_right hlt1024 (pow_pos (by norm_num) 1074)
          _ = 2 ^ 2098 := by rw [← pow_add]
      have hval2 : doubleOfME (n : ℤ) (Int.ofNat 0) = (n : ℚ) := by
        simp [doubleOfME]
      rw [if_pos hcond, if_neg (not_lt.mpr hpos), hval2]

theorem roundToDouble_neg (q : ℚ) :
    roundToDouble (-q) = (roundToDouble q).map (fun r => -r) := by
  by_cases hq : q = 0
  · subst hq
    norm_num [roundToDouble]
  · have h1 : -q ≠ 0 := neg_ne_zero.mpr hq
    have habs : absQ (-q) = absQ q := by
      rw [absQ, absQ]
      rcases lt_trichotomy q 0 with hlt | heq | hgt
      · rw [if_neg (by linarith), if_pos hlt]
      · exact absurd heq hq
      · rw [if_pos (by linarith), if_neg (by linarith), neg_neg]
    rw [roundToDouble, roundToDouble, if_neg h1, if_neg hq, habs]
    by_cases hov : (roundHalfEvenInt (scaledNumDen (absQ q) (mantExp (absQ q))).1
          (scaledNumDen (absQ q) (mantExp (absQ q))).2).toNat *
        2 ^ (mantExp (absQ q) + 1074).toNat < 2 ^ 2098
    · rw [if_pos hov, if_pos hov]
      simp only [Option.map_some']
      congr 1
      rcases lt_trichotomy q 0 with hlt | heq | hgt
      · rw [if_neg (by linarith : ¬ -q < 0), if_pos hlt, neg_neg]
      · exact absurd heq hq
      · rw [if_pos (by linarith : -q < 0), if_neg (by linarith : ¬ q < 0)]
    · rw [if_neg hov, if_neg hov]
      rfl

/-- C10 (amended): for a string denoting a negative integer of magnitude
below `2^53` — where `float()` is exact — the "non-positive → `-`" rule does
NOT apply (it applies only to numeric-typed inputs): the digits pass the
precheck, the float parse keeps the sign, and the thousands-grouped negative
number is returned; `None`, `""`, the number 0 and negative numbers all
yield `"-"`.  (Beyond `2^53` the double rounds away from the denoted
integer, and at the double overflow threshold the result is `"-"` — see the
counterexample.) -/
theorem C10_theorem :
    safe_format_bid .none = "-".toList ∧
    safe_format_bid (.str []) = "-".toList ∧
    safe_format_bid (.int 0) = "-".toList ∧
    (∀ n : ℤ, n < 0 → safe_format_bid (.int n) = "-".toList) ∧
    (∀ q : ℚ, q < 0 → safe_format_bid (.float q) = "-".toList) ∧
    (∀ ds : List Char, ds ≠ [] → (∀ c ∈ ds, c.isDigit = true) →
      digitsVal ds ≠ 0 → digitsVal ds < 2 ^ 53 →
      safe_format_bid (.str ('-' :: ds)) = pyGroupInt (-(digitsVal ds : ℤ)) ∧
        safe_format_bid (.str ('-' :: ds)) ≠ "-".toList) := by
  refine ⟨rfl, rfl, rfl, fun n hn => ?_, fun q hq => ?_,
    fun ds hne hdig hval hsmall => ?_⟩
  · rw [safe_format_bid]
    by_cases h0 : n = 0
    · rw [if_pos (by simp [pyIsNone, pyEqEmptyStr, pyEqZeroNum, h0])]
    · rw [if_neg (by simp [pyIsNone, pyEqEmptyStr, pyEqZeroNum, h0])]
      rw [if_neg (by omega)]
  · rw [safe_format_bid]
    have h0 : q ≠ 0 := ne_of_lt hq
    rw [if_neg (by simp [pyIsNone, pyEqEmptyStr, pyEqZeroNum, h0])]
    rw [if_neg (not_lt.mpr (le_of_lt hq))]
  · have hnc : ∀ c ∈ ds, ¬(c = ',') := by
      intro c hc he
      have := hdig c hc
      rw [he] at this
      simp [Char.isDigit] at this
    have hns : ∀ c ∈ ds, ¬(c = ' ') := by
      intro c hc he
      have := hdig c hc
      rw [he] at this
      simp [Char.isDigit] at this
    have hnd : ('.' : Char) ∉ ds := by
      intro hm
      have := hdig '.' hm
      simp [Char.isDigit] at this
    have hf1 : ('-' :: ds).filter (fun c => c ≠ ',') = '-' :: ds := by
      apply List.filter_eq_self.mpr
      intro c hc
      rcases List.mem_cons.mp hc with h1 | h1
      · simp [h1]
      · simpa using hnc c h1
    have hfilter :
        ((('-' :: ds).filter (fun c => c ≠ ',')).filter (fun c => c ≠ ' ')) = '-' :: ds := by
      rw [hf1]
      apply List.filter_eq_self.mpr
      intro c hc
      rcases List.mem_cons.mp hc with h1 | h1
      · simp [h1]
      · simpa using hns c h1
    have hrm : removeFirst '-' (removeFirst '.' ('-' :: ds)) = ds := by
      rw [removeFirst, if_neg (by decide)]
      rw [removeFirst_of_not_mem hnd]
      rw [removeFirst, if_pos rfl]
    have hparse : pyParseFloat ('-' :: ds) = some (-(digitsVal ds : ℚ)) := by
      rw [pyParseFloat]
      simp only
      rw [List.takeWhile_eq_self_iff.mpr hdig,
        List.dropWhile_eq_nil_iff.mpr (fun x hx => by simp [hdig x hx])]
      rw [if_neg (by simpa using hne)]
      show roundToDouble (-(digitsVal ds : ℚ)) = some (-(digitsVal ds : ℚ))
      rw [show -(digitsVal ds : ℚ) = -((digitsVal ds : ℕ) : ℚ) from rfl,
        roundToDouble_neg, roundToDouble_natCast (digitsVal ds) hsmall]
      rfl
    have hmain : safe_format_bid (.str ('-' :: ds)) = pyGroupInt (-(digitsVal ds : ℤ)) := by
      rw [safe_format_bid]
      rw [if_neg (by simp [pyIsNone, pyEqEmptyStr, pyEqZeroNum])]
      simp only [hfilter, hrm]
      rw [if_pos (show pyIsDigitStr ds = true by
        rw [pyIsDigitStr, Bool.and_eq_true, List.all_eq_true]
        refine ⟨?_, hdig⟩
        cases hds : ds with
        | nil => exact absurd hds hne
        | cons c t => rfl)]
      rw [hparse]
      show pyGroupInt (pyIntTrunc (-(digitsVal ds : ℚ))) = pyGroupInt (-(digitsVal ds : ℤ))
      have hq : (0 : ℚ) < (digitsVal ds : ℚ) := by
        have : 0 < digitsVal ds := Nat.pos_of_ne_zero hval
        exact_mod_cast this
      have htr : pyIntTrunc (-(digitsVal ds : ℚ)) = -(digitsVal ds : ℤ) := by
        rw [pyIntTrunc, if_pos (by linarith)]
        rw [neg_neg, Int.floor_natCast]
      rw [htr]
    refine ⟨hmain, ?_⟩
    rw [hmain, pyGroupInt]
    have hneg : (-(digitsVal ds : ℤ)) < 0 := by
      have : 0 < digitsVal ds := Nat.pos_of_ne_zero hval
      omega
    rw [if_pos hneg]
    intro hcon
    have hlen := congrArg List.length hcon
    have hg : (group3 (natDecimalRev (-(digitsVal ds : ℤ)).natAbs)).reverse ≠ [] := by
      intro hg
      exact group3_ne_nil (natDecimalRev_ne_nil _) (by simpa using hg)
    simp only [List.length_append, List.length_cons, List.length_nil] at hlen
    cases hgr : (group3 (natDecimalRev (-(digitsVal ds : ℤ)).natAbs)).reverse with
    | nil => exact hg hgr
    | cons x t =>
      rw [hgr] at hlen
      simp at hlen

set_option maxRecDepth 100000 in
/-- C10 counterexample: the unbounded claim is FALSE: for the 309-nines
negative string — a string denoting a negative integer — `float()` overflows
to `-inf`, `int()` raises `OverflowError`, and the bare `except` returns
`"-"`, not a thousands-grouped number. -/
theorem C10_counterexample :
    (∀ c ∈ List.replicate 309 '9', c.isDigit = true) ∧
      digitsVal (List.replicate 309 '9') ≠ 0 ∧
      safe_format_bid (.str ('-' :: List.replicate 309 '9')) = "-".toList := by
  refine ⟨by decide, by decide, by decide⟩

/-- Witness for C10 at concrete inputs: the string `"-5"` formats as `"-5"`
while the int `-3` formats as `"-"`. -/
theorem C10_witness :
    safe_format_bid (.str "-5".toList) = "-5".toList ∧
      safe_format_bid (.int (-3)) = "-".toList := by
  constructor
  · have h := ( C10_theorem.2.2.2.2.2 "5".toList (by decide) (by decide) (by decide)
      (by decide)).1
    exact h.trans (by decide)
  · exact C10_theorem.2.2.2.1 (-3) (by norm_num)

/-! ## The stats fetch loop (`fetch_keyword_data`, src/app.py lines 103-186) -/

/-- Devices of the bid endpoint (`'PC'` and `'MOBILE'`). -/
inductive Device
  | pc
  | mobile
deriving DecidableEq

/-- Observable actions of the client: retry-delay sleeps (with their integer
duration from `wait_between_retries`), the pacing sleep of
`1.0 / calls_per_second` seconds (left abstract — it is the same float before
every request of a run), and the outbound requests. -/
inductive Event
  | sleepRetry (seconds : ℕ)
  | sleepPace
  | reqStats (attempt : ℕ)
  | reqBid (device : Device)
deriving DecidableEq

/-- A speed-mode configuration.  Only the fields the model observes are
carried: `calls_per_second` and `timeout` feed the abstract pacing sleep and
the transport only. -/
structure ModeConfig where
  retry_count : ℕ
  wait_between_retries : List ℕ
deriving DecidableEq

/-- The five `SPEED_MODES` presets (lines 22-58), restricted to the modelled
fields. -/
def SPEED_MODES : ℕ → ModeConfig
  | 0 => ⟨2, [5, 15]⟩
  | 1 => ⟨3, [5, 10, 20]⟩
  | 2 => ⟨3, [3, 8, 15]⟩
  | 3 => ⟨2, [2, 8]⟩
  | _ => ⟨2, [2, 5]⟩

/-- `mode_config['wait_between_retries'][min(i, len - 1)]` (lines 116, 164,
169). -/
def retryDelay (cfg : ModeConfig) (i : ℕ) : ℕ :=
  cfg.wait_between_retries.getD (min i (cfg.wait_between_retries.length - 1)) 0

/-- The fields of one element of the stats response's `keywordList` that the
program reads; `Option.none`/`PyValue.none` model a missing key
(`dict.get` returns `None`). -/
structure KwDict where
  relKeyword : Option (List Char)
  monthlyPcQcCnt : PyValue
  monthlyMobileQcCnt : PyValue
  monthlyAvePcCtr : PyValue
  monthlyAveMobileCtr : PyValue
  compIdx : Option (List Char)
deriving DecidableEq

/-- One element of `keywordList`: either not a JSON object (the `isinstance`
check of line 155 fails) or an object. -/
inductive JsonItem
  | notDict
  | dict (d : KwDict)
deriving DecidableEq

/-- `isinstance(first_item, dict) and first_item.get('relKeyword')`
(line 155): a dict whose `relKeyword` is present and truthy. -/
def hasRelKeyword : JsonItem → Bool
  | .notDict => false
  | .dict d =>
    match d.relKeyword with
    | some s => !s.isEmpty
    | none => false

/-- Lines 148-158: look at `keywordList` and return its FIRST element when
that element is a dict with a truthy `relKeyword`; in every other case
(empty list, or a first element failing the check) return `None`. -/
def selectKeywordItem (data : List JsonItem) : Option JsonItem :=
  match data with
  | [] => none
  | first :: _ => if hasRelKeyword first then some first else none

/-- One upstream answer to a stats request, as the code discriminates them:
a parseable 200 body (carrying `keywordList`), a 200 body raising
`json.JSONDecodeError`, the handled statuses 403/429/401, any other status,
a `requests` timeout, or any other exception. -/
inductive StatsResp
  | ok (keywordList : List JsonItem)
  | badJson
  | s403
  | s429
  | s401
  | otherStatus
  | timeout
  | exc
deriving DecidableEq

/-- Responses on which the loop falls through to the next attempt (every
response except a 200 — parseable or not matters only for which value is
returned — and the non-retryable 401). -/
def continuesRetry : StatsResp → Bool
  | .ok _ => false
  | .s401 => false
  | _ => true

/-- The retry loop of lines 113-186, unrolled from attempt `a` with `fuel`
remaining iterations; `fetch_keyword_data` starts it at attempt 0 with fuel
`retry_count`.  `u n` is the upstream's answer to the request of attempt
`n`.  Returns the result together with the emitted event trace: the
top-of-iteration retry sleep of lines 115-117 (absent on attempt 0), the
pacing sleep of line 120, the request, and — on 403/429 — the branch retry
sleep of lines 163-171. -/
def fetchLoop (cfg : ModeConfig) (u : ℕ → StatsResp) :
    ℕ → ℕ → Option JsonItem × List Event
  | _, 0 => (none, [])
  | a, fuel + 1 =>
    let top : List Event :=
      if a > 0 then [.sleepRetry (retryDelay cfg (a - 1))] else []
    let pre : List Event := top ++ [.sleepPace, .reqStats a]
    match u a with
    | .ok data => (selectKeywordItem data, pre)
    | .badJson =>
      let (r, t) := fetchLoop cfg u (a + 1) fuel
      (r, pre ++ t)
    | .s403 =>
      let (r, t) := fetchLoop cfg u (a + 1) fuel
      (r, pre ++ [.sleepRetry (retryDelay cfg a)] ++ t)
    | .s429 =>
      let (r, t) := fetchLoop cfg u (a + 1) fuel
      (r, pre ++ [.sleepRetry (retryDelay cfg a)] ++ t)
    | .s401 => (none, pre)
    | .otherStatus =>
      let (r, t) := fetchLoop cfg u (a + 1) fuel
      (r, pre ++ t)
    | .timeout =>
      let (r, t) := fetchLoop cfg u (a + 1) fuel
      (r, pre ++ t)
    | .exc =>
      let (r, t) := fetchLoop cfg u (a + 1) fuel
      (r, pre ++ t)

/-- `fetch_keyword_data` (lines 103-186): sanitize, return `None` without
any network traffic on an empty sanitized keyword, else run the retry loop
for `retry_count` attempts. -/
def fetch_keyword_data (keyword : List Char) (cfg : ModeConfig)
    (u : ℕ → StatsResp) : Option JsonItem × List Event :=
  if clean_keyword keyword = [] then (none, [])
  else fetchLoop cfg u 0 cfg.retry_count

/-! ## Claims C2 (first-element selection) and C6 (401 is terminal) -/

/-- C2: the claim is FALSE: the code inspects only `keywordList[0]` and
never scans for the first element satisfying the predicate.  On a list whose
first element lacks `relKeyword` and whose second element has one, the code
returns `None` although a satisfying element exists (and `find?` locates
it). -/
theorem C2_counterexample :
    selectKeywordItem
        [JsonItem.dict ⟨none, .none, .none, .none, .none, none⟩,
          JsonItem.dict ⟨some ['k'], .none, .none, .none, .none, none⟩] = none ∧
      List.find? hasRelKeyword
        [JsonItem.dict ⟨none, .none, .none, .none, .none, none⟩,
          JsonItem.dict ⟨some ['k'], .none, .none, .none, .none, none⟩] =
        some (JsonItem.dict ⟨some ['k'], .none, .none, .none, .none, none⟩) := by
  constructor <;> rfl

/-- C2 (amended): on a parseable 200 response the fetch returns the HEAD of
the candidate list exactly when that head has a non-empty primary-keyword
field, and `None` otherwise — even when a later element would satisfy the
predicate; an empty list gives `None`. -/
theorem C2_theorem :
    (∀ (data : List JsonItem) (x : JsonItem),
      selectKeywordItem data = some x ↔
        data.head? = some x ∧ hasRelKeyword x = true) ∧
    (∀ (cfg : ModeConfig) (u : ℕ → StatsResp) (a fuel : ℕ)
      (data : List JsonItem), u a = .ok data →
      (fetchLoop cfg u a (fuel + 1)).1 = selectKeywordItem data) := by
  constructor
  · intro data x
    cases data with
    | nil => simp [selectKeywordItem]
    | cons first rest =>
      rw [selectKeywordItem]
      by_cases h : hasRelKeyword first = true
      · rw [if_pos h]
        constructor
        · intro hx
          obtain rfl : first = x := by injection hx
          exact ⟨rfl, h⟩
        · intro ⟨hh, _⟩
          obtain rfl : first = x := by injection hh
          rfl
      · rw [if_neg h]
        constructor
        · intro hx
          exact absurd hx (by simp)
        · intro ⟨hh, hx⟩
          obtain rfl : first = x := by injection hh
          exact absurd hx h
  · intro cfg u a fuel data hu
    simp [fetchLoop, hu]

/-- Witness for C2's amended theorem at a concrete input. -/
theorem C2_witness :
    (fetchLoop (SPEED_MODES 1) (fun _ => StatsResp.ok []) 0 1).1 =
      selectKeywordItem [] :=
  C2_theorem.2 (SPEED_MODES 1) (fun _ => StatsResp.ok []) 0 0 [] rfl

/-- C6: an upstream 401 to the stats request is terminal: the client returns
`None` after exactly one attempt (the trace holds a single request event and
no retry sleep), regardless of the remaining retry budget. -/
theorem C6_theorem (keyword : List Char) (cfg : ModeConfig)
    (u : ℕ → StatsResp)
    (hkw : clean_keyword keyword ≠ [])
    (hrc : 1 ≤ cfg.retry_count)
    (h401 : u 0 = .s401) :
    fetch_keyword_data keyword cfg u =
      (none, [Event.sleepPace, Event.reqStats 0]) := by
  rw [fetch_keyword_data, if_neg hkw]
  obtain ⟨f, hf⟩ : ∃ f, cfg.retry_count = f + 1 :=
    ⟨cfg.retry_count - 1, by omega⟩
  rw [hf]
  simp [fetchLoop, h401]

/-- Witness for C6: the always-401 upstream with the slowest preset. -/
theorem C6_witness :
    fetch_keyword_data "abc".toList (SPEED_MODES 0) (fun _ => StatsResp.s401) =
      (none, [Event.sleepPace, Event.reqStats 0]) :=
  C6_theorem "abc".toList (SPEED_MODES 0) (fun _ => StatsResp.s401)
    (by decide) (by decide) rfl

/-! ## Claim C4: sleeps between consecutive attempts -/

/-- One unrolling of the loop at an attempt whose response lets the loop
continue: the iteration emits its top-of-iteration retry sleep (for `a > 0`),
the pacing sleep, the request, and — exactly on 403/429 — the branch retry
sleep, before the remaining iterations run. -/
theorem fetchLoop_continue_step (cfg : ModeConfig) (u : ℕ → StatsResp)
    (a fuel : ℕ) (h : continuesRetry (u a) = true) :
    fetchLoop cfg u a (fuel + 1) =
      ((fetchLoop cfg u (a + 1) fuel).1,
        (if a > 0 then [Event.sleepRetry (retryDelay cfg (a - 1))] else [])
          ++ [Event.sleepPace, Event.reqStats a]
          ++ (if u a = .s403 ∨ u a = .s429 then
                [Event.sleepRetry (retryDelay cfg a)] else [])
          ++ (fetchLoop cfg u (a + 1) fuel).2) := by
  cases hu : u a with
  | ok data => rw [hu] at h; simp [continuesRetry] at h
  | s401 => rw [hu] at h; simp [continuesRetry] at h
  | badJson => simp [fetchLoop, hu]
  | s403 => simp [fetchLoop, hu]
  | s429 => simp [fetchLoop, hu]
  | otherStatus => simp [fetchLoop, hu]
  | timeout => simp [fetchLoop, hu]
  | exc => simp [fetchLoop, hu]

/-- Every executed iteration's trace starts with the top-of-iteration retry
sleep (for `a > 0`), the pacing sleep and the request, whatever the response
turns out to be. -/
theorem fetchLoop_trace_head (cfg : ModeConfig) (u : ℕ → StatsResp)
    (a fuel : ℕ) :
    ∃ rest, (fetchLoop cfg u a (fuel + 1)).2 =
      (if a > 0 then [Event.sleepRetry (retryDelay cfg (a - 1))] else [])
        ++ [Event.sleepPace, Event.reqStats a] ++ rest := by
  cases hu : u a with
  | ok data => exact ⟨[], by simp [fetchLoop, hu]⟩
  | s401 => exact ⟨[], by simp [fetchLoop, hu]⟩
  | badJson => exact ⟨(fetchLoop cfg u (a + 1) fuel).2, by simp [fetchLoop, hu]⟩
  | s403 =>
    exact ⟨[Event.sleepRetry (retryDelay cfg a)] ++ (fetchLoop cfg u (a + 1) fuel).2,
      by simp [fetchLoop, hu]⟩
  | s429 =>
    exact ⟨[Event.sleepRetry (retryDelay cfg a)] ++ (fetchLoop cfg u (a + 1) fuel).2,
      by simp [fetchLoop, hu]⟩
  | otherStatus => exact ⟨(fetchLoop cfg u (a + 1) fuel).2, by simp [fetchLoop, hu]⟩
  | timeout => exact ⟨(fetchLoop cfg u (a + 1) fuel).2, by simp [fetchLoop, hu]⟩
  | exc => exact ⟨(fetchLoop cfg u (a + 1) fuel).2, by simp [fetchLoop, hu]⟩

/-- When the first `i` responses all let the loop continue, the full run
factors as a prefix (whose requests are all of attempts `< i`) followed by
the loop unrolled from attempt `i`. -/
theorem fetchLoop_reach (cfg : ModeConfig) (u : ℕ → StatsResp) :
    ∀ i : ℕ, i ≤ cfg.retry_count →
    (∀ k < i, continuesRetry (u k) = true) →
    ∃ pre,
      fetchLoop cfg u 0 cfg.retry_count =
        ((fetchLoop cfg u i (cfg.retry_count - i)).1,
          pre ++ (fetchLoop cfg u i (cfg.retry_count - i)).2) ∧
      ∀ j, Event.reqStats j ∈ pre → j < i := by
  intro i
  induction i with
  | zero =>
    intro _ _
    exact ⟨[], by simp, by simp⟩
  | succ n ih =>
    intro hle hcont
    obtain ⟨pre, hpre, hreq⟩ := ih (by omega) (fun k hk => hcont k (by omega))
    have hfuel : cfg.retry_count - n = (cfg.retry_count - (n + 1)) + 1 := by omega
    rw [hfuel, fetchLoop_continue_step cfg u n _ (hcont n (by omega))] at hpre
    refine ⟨pre ++ ((if n > 0 then [Event.sleepRetry (retryDelay cfg (n - 1))] else [])
      ++ [Event.sleepPace, Event.reqStats n]
      ++ (if u n = .s403 ∨ u n = .s429 then
            [Event.sleepRetry (retryDelay cfg n)] else [])), ?_, ?_⟩
    · rw [hpre]
      simp [List.append_assoc]
    · intro j hj
      rcases List.mem_append.mp hj with h1 | h1
      · exact Nat.lt_trans (hreq j h1) (Nat.lt_succ_self n)
      · have hjn : j = n := by
          rcases List.mem_append.mp h1 with h2 | h2
          · rcases List.mem_append.mp h2 with h3 | h3
            · by_cases hn : n > 0
              · rw [if_pos hn] at h3
                simp at h3
              · rw [if_neg hn] at h3
                simp at h3
            · simpa using h3
          · by_cases h43 : u n = .s403 ∨ u n = .s429
            · rw [if_pos h43] at h2
              simp at h2
            · rw [if_neg h43] at h2
              simp at h2
        omega

/-- C4: between two consecutive attempts the retry-delay sleep of duration
`wait_between_retries[min(i, len-1)]` occurs TWICE after a 403/429 (once in
the status branch of lines 163-171, once at the top of the next iteration,
lines 115-117), and ONCE after a 200 response with an unparseable body (the
top-of-iteration sleep); in both cases the pacing sleep follows it directly
before the next request. -/
theorem C4_theorem (keyword : List Char) (cfg : ModeConfig)
    (u : ℕ → StatsResp) (i : ℕ)
    (hkw : clean_keyword keyword ≠ [])
    (hreach : ∀ k < i, continuesRetry (u k) = true)
    (hi : i + 1 < cfg.retry_count) :
    ((u i = .s403 ∨ u i = .s429) →
      ∃ pre rest, (fetch_keyword_data keyword cfg u).2 =
        pre ++ [Event.reqStats i,
          Event.sleepRetry (retryDelay cfg i), Event.sleepRetry (retryDelay cfg i),
          Event.sleepPace, Event.reqStats (i + 1)] ++ rest ∧
        ∀ j, Event.reqStats j ∈ pre → j < i) ∧
    (u i = .badJson →
      ∃ pre rest, (fetch_keyword_data keyword cfg u).2 =
        pre ++ [Event.reqStats i,
          Event.sleepRetry (retryDelay cfg i),
          Event.sleepPace, Event.reqStats (i + 1)] ++ rest ∧
        ∀ j, Event.reqStats j ∈ pre → j < i) := by
  rw [fetch_keyword_data, if_neg hkw]
  obtain ⟨pre₀, hpre₀, hreq₀⟩ :=
    fetchLoop_reach cfg u i (by omega) hreach
  have hfuel : cfg.retry_count - i = (cfg.retry_count - (i + 1)) + 1 := by omega
  have hfuel2 : cfg.retry_count - (i + 1) = (cfg.retry_count - (i + 2)) + 1 := by omega
  obtain ⟨rest₁, hrest₁⟩ :=
    fetchLoop_trace_head cfg u (i + 1) (cfg.retry_count - (i + 2))
  rw [← hfuel2] at hrest₁
  have hnext : (fetchLoop cfg u (i + 1) (cfg.retry_count - (i + 1))).2 =
      [Event.sleepRetry (retryDelay cfg i), Event.sleepPace,
        Event.reqStats (i + 1)] ++ rest₁ := by
    rw [hrest₁]
    simp
  have hnoreq : ∀ j, Event.reqStats j ∈
      pre₀ ++ ((if i > 0 then [Event.sleepRetry (retryDelay cfg (i - 1))] else [])
        ++ [Event.sleepPace]) → j < i := by
    intro j hj
    rcases List.mem_append.mp hj with h1 | h1
    · exact hreq₀ j h1
    · rcases List.mem_append.mp h1 with h2 | h2
      · by_cases hn : i > 0
        · rw [if_pos hn] at h2
          simp at h2
        · rw [if_neg hn] at h2
          simp at h2
      · simp at h2
  constructor
  · intro h43
    have hcont : continuesRetry (u i) = true := by
      rcases h43 with h | h <;> simp [continuesRetry, h]
    rw [hfuel, fetchLoop_continue_step cfg u i _ hcont] at hpre₀
    refine ⟨pre₀ ++ ((if i > 0 then [Event.sleepRetry (retryDelay cfg (i - 1))] else [])
      ++ [Event.sleepPace]), rest₁, ?_, hnoreq⟩
    rw [hpre₀]
    simp only [if_pos h43, hnext]
    simp [List.append_assoc]
  · intro hbad
    have hcont : continuesRetry (u i) = true := by simp [continuesRetry, hbad]
    rw [hfuel, fetchLoop_continue_step cfg u i _ hcont] at hpre₀
    refine ⟨pre₀ ++ ((if i > 0 then [Event.sleepRetry (retryDelay cfg (i - 1))] else [])
      ++ [Event.sleepPace]), rest₁, ?_, hnoreq⟩
    rw [hpre₀]
    have hno : ¬(u i = .s403 ∨ u i = .s429) := by simp [hbad]
    simp only [if_neg hno, hnext]
    simp [List.append_assoc]

/-- Witness for C4 at a concrete input: slowest preset, a 403 on attempt 0. -/
theorem C4_witness :
    ∃ pre rest,
      (fetch_keyword_data "abc".toList (SPEED_MODES 0)
          (fun n => if n = 0 then StatsResp.s403 else StatsResp.ok [])).2 =
        pre ++ [Event.reqStats 0,
          Event.sleepRetry (retryDelay (SPEED_MODES 0) 0),
          Event.sleepRetry (retryDelay (SPEED_MODES 0) 0),
          Event.sleepPace, Event.reqStats 1] ++ rest ∧
        ∀ j, Event.reqStats j ∈ pre → j < 0 :=
  ( C4_theorem "abc".toList (SPEED_MODES 0)
      (fun n => if n = 0 then StatsResp.s403 else StatsResp.ok []) 0
      (by decide) (fun k hk => absurd hk (Nat.not_lt_zero k)) (by decide)).1
    (Or.inl rfl)

/-- C4 counterexample: with the slowest preset and a single 403 (resp. a
single unparseable 200), the full trace shows TWO retry sleeps (resp. ONE)
between the two requests — the claim demands exactly one (resp. none). -/
theorem C4_counterexample :
    (fetch_keyword_data "abc".toList ⟨2, [5, 15]⟩
        (fun n => if n = 0 then StatsResp.s403 else StatsResp.ok [])).2 =
      [Event.sleepPace, Event.reqStats 0, Event.sleepRetry 5, Event.sleepRetry 5,
        Event.sleepPace, Event.reqStats 1] ∧
    (fetch_keyword_data "abc".toList ⟨2, [5, 15]⟩
        (fun n => if n = 0 then StatsResp.badJson else StatsResp.ok [])).2 =
      [Event.sleepPace, Event.reqStats 0, Event.sleepRetry 5,
        Event.sleepPace, Event.reqStats 1] := by
  constructor <;> rfl

/-! ## The bid fetch (`fetch_bid_data`, src/app.py lines 188-244) -/

/-- One estimate item of a bid response: the values of
`item.get('position')` and `item.get('bid')`. -/
structure EstItem where
  position : Option ℤ
  bid : Option ℤ
deriving DecidableEq

/-- One upstream answer to a bid request.  The code only tests
`status_code == 200` and catches every exception, so non-200 statuses
(403/429 included), timeouts, transport errors and parse errors are
indistinguishable to it: all of them fall through to the null-filled
result. -/
inductive BidResp
  | ok (estimates : List EstItem)
  | fail
deriving DecidableEq

/-- Key of the per-device result dict, `f"{device} {pos}위"`: the device and
the rendered position (`Option` because `item.get('position')` may be
`None`, which renders as a distinct `"... None위"` key). -/
abbrev BidKey := Device × Option ℤ

/-- Python dict assignment `d[k] = v`: overwrite in place when the key
exists, else append. -/
def dictSet (d : List (BidKey × Option ℤ)) (k : BidKey) (v : Option ℤ) :
    List (BidKey × Option ℤ) :=
  if d.any (fun kv => kv.1 = k) then
    d.map (fun kv => if kv.1 = k then (k, v) else kv)
  else d ++ [(k, v)]

/-- Python `d.update(entries)`: assign each entry in order. -/
def dictUpdate (d : List (BidKey × Option ℤ))
    (entries : List (BidKey × Option ℤ)) : List (BidKey × Option ℤ) :=
  entries.foldl (fun acc kv => dictSet acc kv.1 kv.2) d

/-- Python `d.get(k)` on the result dict: `some v` when the key is present
(where `v` is the possibly-null bid), `none` when the key is absent. -/
def dictLookup (k : BidKey) (d : List (BidKey × Option ℤ)) :
    Option (Option ℤ) :=
  (d.find? (fun kv => kv.1 = k)).map Prod.snd

/-- `{f"{device} {pos}위": None for pos in [1, 2, 3, 4, 5]}` (lines 211 and
238). -/
def nullBids (device : Device) : List (BidKey × Option ℤ) :=
  [1, 2, 3, 4, 5].map (fun p => ((device, some p), none))

/-- The 200 branch of lines 225-233: start from an empty dict and assign
`result[f"{device} {pos}위"] = bid` for each returned estimate item — only
the positions the response mentions get a key. -/
def estimatesToDict (device : Device) (estimates : List EstItem) :
    List (BidKey × Option ℤ) :=
  dictUpdate [] (estimates.map (fun it => ((device, it.position), it.bid)))

/-- `fetch_device_bid` (lines 192-238): pacing sleep (before everything,
line 194), sanitize; empty keyword → the null-filled dict with no request;
otherwise POST exactly once — there is no retry loop — and build the dict
from the parseable 200 body, falling back to the null-filled dict in every
other case. -/
def fetch_device_bid (keyword : List Char) (_cfg : ModeConfig)
    (resp : BidResp) (device : Device) :
    List (BidKey × Option ℤ) × List Event :=
  if clean_keyword keyword = [] then (nullBids device, [Event.sleepPace])
  else
    match resp with
    | .ok estimates =>
      (estimatesToDict device estimates, [Event.sleepPace, Event.reqBid device])
    | .fail => (nullBids device, [Event.sleepPace, Event.reqBid device])

/-- `fetch_bid_data` (lines 188-244): one call per device, `'PC'` first and
then `'MOBILE'`, strictly sequential, merged into one dict via `update`. -/
def fetch_bid_data (keyword : List Char) (cfg : ModeConfig)
    (u : Device → BidResp) : List (BidKey × Option ℤ) × List Event :=
  let (rPC, tPC) := fetch_device_bid keyword cfg (u .pc) .pc
  let (rMOB, tMOB) := fetch_device_bid keyword cfg (u .mobile) .mobile
  (dictUpdate (dictUpdate [] rPC) rMOB, tPC ++ tMOB)

/-- The mapping pre-filled with null for all 10 (device, position) pairs. -/
def tenNullBids : List (BidKey × Option ℤ) := nullBids .pc ++ nullBids .mobile

/-! ## Claim C3: the bid fetch is paced but never retried -/

/-- C3: the claim is FALSE: with retry budget 2 and an upstream that
rate-limits every bid request, each device is attempted exactly once and no
retry sleep occurs — the bid path has no retry loop at all. -/
theorem C3_counterexample :
    (fetch_bid_data "abc".toList (SPEED_MODES 0) (fun _ => BidResp.fail)).2 =
        [Event.sleepPace, Event.reqBid .pc, Event.sleepPace, Event.reqBid .mobile] ∧
      (SPEED_MODES 0).retry_count = 2 := by
  constructor <;> rfl

/-- C3 (amended): for every non-empty sanitized keyword the bid fetch
issues exactly one paced POST per device — pacing sleep then request, `PC`
first then `MOBILE` — with no retry attempt and no retry-delay sleep,
whatever the upstream answers and whatever the retry budget is. -/
theorem C3_theorem (keyword : List Char) (cfg : ModeConfig)
    (u : Device → BidResp) (hkw : clean_keyword keyword ≠ []) :
    (fetch_bid_data keyword cfg u).2 =
      [Event.sleepPace, Event.reqBid .pc, Event.sleepPace, Event.reqBid .mobile] := by
  cases hpc : u .pc <;> cases hmob : u .mobile <;>
    simp [fetch_bid_data, fetch_device_bid, hpc, hmob, hkw]

/-- Witness for C3 at a concrete input. -/
theorem C3_witness :
    (fetch_bid_data "abc".toList (SPEED_MODES 3) (fun _ => BidResp.fail)).2 =
      [Event.sleepPace, Event.reqBid .pc, Event.sleepPace, Event.reqBid .mobile] :=
  C3_theorem "abc".toList (SPEED_MODES 3) (fun _ => BidResp.fail) (by decide)

/-! ## Claim C7: shape of the bid mapping -/

theorem dictKeys_dictSet (d : List (BidKey × Option ℤ)) (k : BidKey)
    (v : Option ℤ) (k' : BidKey) :
    k' ∈ (dictSet d k v).map Prod.fst ↔ k' ∈ d.map Prod.fst ∨ k' = k := by
  rw [dictSet]
  by_cases h : d.any (fun kv => kv.1 = k) = true
  · rw [if_pos h]
    rw [List.any_eq_true] at h
    obtain ⟨kv₀, hkv₀, hk₀⟩ := h
    rw [decide_eq_true_eq] at hk₀
    simp only [List.map_map, List.mem_map, Function.comp]
    constructor
    · rintro ⟨kv, hkv, hval⟩
      by_cases hc : kv.1 = k
      · rw [if_pos hc] at hval
        exact Or.inr hval.symm
      · rw [if_neg hc] at hval
        exact Or.inl ⟨kv, hkv, hval⟩
    · rintro (⟨kv, hkv, hval⟩ | rfl)
      · refine ⟨kv, hkv, ?_⟩
        by_cases hc : kv.1 = k
        · rw [if_pos hc]
          rw [← hval, hc]
        · rw [if_neg hc]
          exact hval
      · exact ⟨kv₀, hkv₀, by rw [if_pos hk₀]⟩
  · rw [if_neg h]
    simp [List.mem_map]

theorem dictKeys_dictUpdate : ∀ (es d : List (BidKey × Option ℤ)) (k' : BidKey),
    k' ∈ (dictUpdate d es).map Prod.fst ↔
      k' ∈ d.map Prod.fst ∨ k' ∈ es.map Prod.fst
  | [], d, k' => by simp [dictUpdate]
  | kv :: es, d, k' => by
    have ih := dictKeys_dictUpdate es (dictSet d kv.1 kv.2) k'
    simp only [dictUpdate, List.foldl_cons] at ih ⊢
    rw [ih, dictKeys_dictSet]
    simp only [List.map_cons, List.mem_cons]
    tauto

theorem dictLookup_isSome_iff (k : BidKey) (d : List (BidKey × Option ℤ)) :
    (dictLookup k d).isSome = true ↔ k ∈ d.map Prod.fst := by
  rw [dictLookup]
  cases hf : d.find? (fun kv => kv.1 = k) with
  | none =>
    simp only [Option.map_none', Option.isSome_none]
    rw [List.find?_eq_none] at hf
    have hnot : ¬ k ∈ d.map Prod.fst := by
      rw [List.mem_map]
      rintro ⟨kv, hkv, hval⟩
      exact (by simpa using hf kv hkv : ¬ kv.1 = k) hval
    simp [hnot]
  | some kv =>
    simp only [Option.map_some', Option.isSome_some, true_iff]
    have hm := List.find?_some hf
    have hmem := List.mem_of_find?_eq_some hf
    rw [decide_eq_true_eq] at hm
    exact List.mem_map.mpr ⟨kv, hmem, hm⟩

/-- Every key of a per-device result carries that device. -/
theorem fetch_device_bid_keys (keyword : List Char) (cfg : ModeConfig)
    (resp : BidResp) (dev : Device) :
    ∀ k ∈ ((fetch_device_bid keyword cfg resp dev).1).map Prod.fst,
      k.1 = dev := by
  intro k hk
  rw [fetch_device_bid.eq_def] at hk
  by_cases hkw : clean_keyword keyword = []
  · rw [if_pos hkw] at hk
    simp only [nullBids, List.map_map, List.mem_map, Function.comp] at hk
    obtain ⟨p, _, hval⟩ := hk
    rw [← hval]
  · rw [if_neg hkw] at hk
    cases resp with
    | fail =>
      simp only [nullBids, List.map_map, List.mem_map, Function.comp] at hk
      obtain ⟨p, _, hval⟩ := hk
      rw [← hval]
    | ok es =>
      simp only [estimatesToDict] at hk
      rw [dictKeys_dictUpdate] at hk
      rcases hk with h1 | h1
      · simp at h1
      · simp only [List.map_map, List.mem_map, Function.comp] at h1
        obtain ⟨it, _, hval⟩ := h1
        rw [← hval]

/-- Keys of a successful per-device result are exactly the positions the
response mentions. -/
theorem estimatesToDict_keys (dev : Device) (es : List EstItem)
    (p : Option ℤ) :
    (dev, p) ∈ (estimatesToDict dev es).map Prod.fst ↔
      p ∈ es.map EstItem.position := by
  rw [estimatesToDict, dictKeys_dictUpdate]
  simp only [List.map_nil, List.mem_nil_iff, false_or, List.map_map,
    List.mem_map, Function.comp]
  constructor
  · rintro ⟨it, hit, hval⟩
    have : it.position = p := by
      have := congrArg Prod.snd hval
      simpa using this
    exact ⟨it, hit, this⟩
  · rintro ⟨it, hit, hval⟩
    exact ⟨it, hit, by rw [hval]⟩

/-- C7: the claim is FALSE: a successful (200) bid response that mentions no
positions produces an EMPTY mapping — none of the 10 (device, position) keys
is present, and no null is filled in. -/
theorem C7_counterexample :
    (fetch_bid_data "abc".toList (SPEED_MODES 0) (fun _ => BidResp.ok [])).1 = [] ∧
      dictLookup (Device.pc, some 1)
        (fetch_bid_data "abc".toList (SPEED_MODES 0) (fun _ => BidResp.ok [])).1 =
        none := by
  constructor <;> rfl

/-- C7 (amended): an empty sanitized keyword yields the mapping pre-filled
with null for all 10 (device, position) keys and no network request; a
failed device fetch likewise contributes its 5 null positions (here stated
for both devices failing); but a SUCCESSFUL (200) response contributes
exactly the keys for the positions its estimate items mention — positions
missing from the response are absent from the mapping rather than null
(callers compensate with `dict.get(key, None)`). -/
theorem C7_theorem (keyword : List Char) (cfg : ModeConfig)
    (u : Device → BidResp) :
    (clean_keyword keyword = [] →
      fetch_bid_data keyword cfg u =
        (tenNullBids, [Event.sleepPace, Event.sleepPace])) ∧
    (clean_keyword keyword ≠ [] → u .pc = .fail → u .mobile = .fail →
      (fetch_bid_data keyword cfg u).1 = tenNullBids) ∧
    (∀ es (p : Option ℤ), clean_keyword keyword ≠ [] → u .pc = .ok es →
      ((dictLookup (Device.pc, p) (fetch_bid_data keyword cfg u).1).isSome = true ↔
        p ∈ es.map EstItem.position)) ∧
    (∀ es (p : Option ℤ), clean_keyword keyword ≠ [] → u .mobile = .ok es →
      ((dictLookup (Device.mobile, p) (fetch_bid_data keyword cfg u).1).isSome = true ↔
        p ∈ es.map EstItem.position)) := by
  refine ⟨fun hkw => ?_, fun hkw hpc hmob => ?_, fun es p hkw hpc => ?_,
    fun es p hkw hmob => ?_⟩
  · simp only [fetch_bid_data, fetch_device_bid, if_pos hkw]
    rfl
  · simp only [fetch_bid_data, fetch_device_bid, if_neg hkw, hpc, hmob]
    rfl
  · rw [dictLookup_isSome_iff]
    have hsplit : (fetch_bid_data keyword cfg u).1 =
        dictUpdate (dictUpdate [] (fetch_device_bid keyword cfg (u .pc) .pc).1)
          (fetch_device_bid keyword cfg (u .mobile) .mobile).1 := rfl
    rw [hsplit, dictKeys_dictUpdate, dictKeys_dictUpdate]
    have hmobdev := fetch_device_bid_keys keyword cfg (u .mobile) .mobile
    have hnotmob : (Device.pc, p) ∉
        ((fetch_device_bid keyword cfg (u .mobile) .mobile).1).map Prod.fst := by
      intro hmem
      have := hmobdev _ hmem
      simp at this
    have hpcres : (fetch_device_bid keyword cfg (u .pc) .pc).1 =
        estimatesToDict .pc es := by
      rw [fetch_device_bid.eq_def, if_neg hkw, hpc]
    rw [hpcres]
    simp only [List.map_nil, List.mem_nil_iff, false_or]
    constructor
    · rintro (h | h)
      · exact (estimatesToDict_keys .pc es p).mp h
      · exact absurd h hnotmob
    · intro h
      exact Or.inl ((estimatesToDict_keys .pc es p).mpr h)
  · rw [dictLookup_isSome_iff]
    have hsplit : (fetch_bid_data keyword cfg u).1 =
        dictUpdate (dictUpdate [] (fetch_device_bid keyword cfg (u .pc) .pc).1)
          (fetch_device_bid keyword cfg (u .mobile) .mobile).1 := rfl
    rw [hsplit, dictKeys_dictUpdate, dictKeys_dictUpdate]
    have hpcdev := fetch_device_bid_keys keyword cfg (u .pc) .pc
    have hnotpc : (Device.mobile, p) ∉
        ((fetch_device_bid keyword cfg (u .pc) .pc).1).map Prod.fst := by
      intro hmem
      have := hpcdev _ hmem
      simp at this
    have hmobres : (fetch_device_bid keyword cfg (u .mobile) .mobile).1 =
        estimatesToDict .mobile es := by
      rw [fetch_device_bid.eq_def, if_neg hkw, hmob]
    rw [hmobres]
    simp only [List.map_nil, List.mem_nil_iff, false_or]
    constructor
    · rintro (h | h)
      · exact absurd h hnotpc
      · exact (estimatesToDict_keys .mobile es p).mp h
    · intro h
      exact Or.inr ((estimatesToDict_keys .mobile es p).mpr h)

/-- Witness for C7 at concrete inputs: empty keyword gives the ten nulls;
a success mentioning only position 3 yields exactly that key. -/
theorem C7_witness :
    fetch_bid_data "@".toList (SPEED_MODES 0) (fun _ => BidResp.fail) =
        (tenNullBids, [Event.sleepPace, Event.sleepPace]) ∧
      ((dictLookup (Device.pc, some 3)
        (fetch_bid_data "abc".toList (SPEED_MODES 0)
          (fun _ => BidResp.ok [⟨some 3, some 70⟩])).1).isSome = true ↔
        some 3 ∈ [EstItem.mk (some 3) (some 70)].map EstItem.position) := by
  constructor
  · exact ( C7_theorem "@".toList (SPEED_MODES 0) (fun _ => BidResp.fail)).1 (by decide)
  · exact ( C7_theorem "abc".toList (SPEED_MODES 0)
      (fun _ => BidResp.ok [⟨some 3, some 70⟩])).2.2.1
      [⟨some 3, some 70⟩] (some 3) (by decide) rfl

/-! ## Row assembly and the per-keyword processor (lines 267-331) -/

/-- `safe_format_number` (lines 267-270): `safe_get_number` then
`f"{num:,}"`. -/
def safe_format_number (value : PyValue) : List Char :=
  pyGroupInt (safe_get_number value 0)

/-- Python `round` on a rational: round half to even. -/
def pyRoundHalfEven (q : ℚ) : ℤ :=
  let fl := ⌊q⌋
  let fr := q - fl
  if fr < 1 / 2 then fl
  else if fr > 1 / 2 then fl + 1
  else if fl % 2 = 0 then fl else fl + 1

/-- Two-digit zero-padded decimal of `m % 100`. -/
def twoDigits (m : ℕ) : List Char :=
  [Char.ofNat (48 + m / 10 % 10), Char.ofNat (48 + m % 10)]

/-- Render `n` hundredths as a fixed-two-decimals string (the shape
`f"{x:.2f}"` produces once `x` is exactly `n / 100`). -/
def fmtHundredths (n : ℤ) : List Char :=
  (if n < 0 then ['-'] else []) ++
    (natDecimalRev (n.natAbs / 100)).reverse ++ '.' :: twoDigits (n.natAbs % 100)

/-- `safe_format_percentage` (lines 272-278): `None` or non-numeric →
`"0.00%"`, else `f"{round(value * 100, 2):.2f}%"`; floats are modelled by
rationals, `round(·, 2)` as half-to-even rounding at the second decimal. -/
def safe_format_percentage (value : PyValue) : List Char :=
  match value with
  | .int n => fmtHundredths (pyRoundHalfEven ((n : ℚ) * 100 * 100)) ++ ['%']
  | .float q => fmtHundredths (pyRoundHalfEven (q * 100 * 100)) ++ ['%']
  | _ => "0.00%".toList

/-- The rendered device name. -/
def deviceName : Device → List Char
  | .pc => "PC".toList
  | .mobile => "MOBILE".toList

/-- The column name `f"{device} {pos}위"`. -/
def bidColName (d : Device) (p : ℕ) : List Char :=
  deviceName d ++ [' '] ++ (natDecimalRev p).reverse ++ "위".toList

/-- A bid value pulled out of the dict, as the Python value
`bid_info_dict.get(column_name, None)`. -/
def optToPy : Option ℤ → PyValue
  | some n => .int n
  | none => .none

/-- The ten bid columns of lines 322-326, in loop order (`PC` 1..5 then
`MOBILE` 1..5), each formatted with `safe_format_bid` after a defaulting
`dict.get`. -/
def bidColumns (bids : List (BidKey × Option ℤ)) :
    List (List Char × List Char) :=
  ([1, 2, 3, 4, 5].map (fun p =>
    (bidColName .pc p,
      safe_format_bid (optToPy ((dictLookup (Device.pc, some (p : ℤ)) bids).getD none))))) ++
  ([1, 2, 3, 4, 5].map (fun p =>
    (bidColName .mobile p,
      safe_format_bid (optToPy ((dictLookup (Device.mobile, some (p : ℤ)) bids).getD none)))))

/-- The 17-column row dict of lines 307-327, keyed by the ORIGINAL raw
keyword, in insertion order. -/
def buildRow (keyword : List Char) (item : KwDict)
    (bids : List (BidKey × Option ℤ)) : List (List Char × List Char) :=
  let pc_cnt := safe_get_number item.monthlyPcQcCnt 0
  let mob_cnt := safe_get_number item.monthlyMobileQcCnt 0
  let total_cnt := pc_cnt + mob_cnt
  [("키워드".toList, keyword),
    ("PC 검색량".toList, safe_format_number (.int pc_cnt)),
    ("모바일 검색량".toList, safe_format_number (.int mob_cnt)),
    ("총 검색량".toList, safe_format_number (.int total_cnt)),
    ("PC 클릭률".toList, safe_format_percentage item.monthlyAvePcCtr),
    ("모바일 클릭률".toList, safe_format_percentage item.monthlyAveMobileCtr),
    ("경쟁도".toList, item.compIdx.getD "-".toList)] ++ bidColumns bids

/-- `process_single_keyword` (lines 294-331): fetch the stats first; a falsy
result means failure and the bid fetch never runs; otherwise fetch the bids
and assemble the row.  A truthy non-dict stats item would raise at the
`.get` calls (after the bid fetch) and be caught by the enclosing
`try/except`, yielding `None`.  Returns the result and the full event
trace. -/
def process_single_keyword (keyword : List Char) (cfg : ModeConfig)
    (uStats : ℕ → StatsResp) (uBids : Device → BidResp) :
    Option (List (List Char × List Char)) × List Event :=
  let (kwItem, tStats) := fetch_keyword_data keyword cfg uStats
  match kwItem with
  | none => (none, tStats)
  | some item =>
    let (bids, tBids) := fetch_bid_data keyword cfg uBids
    match item with
    | .dict d => (some (buildRow keyword d bids), tStats ++ tBids)
    | .notDict => (none, tStats ++ tBids)

/-- `search_keywords` (lines 333-363), as a function of the per-keyword
processor: iterate the keywords strictly in order; a truthy result (the row
dicts the processor returns are never empty) is appended to `results`, a
falsy one appends the ORIGINAL keyword to `failed_keywords`; the progress
bar and status text are UI-only.  No keyword ever terminates the loop
early. -/
def search_keywords
    (proc : List Char → Option (List (List Char × List Char))) :
    List (List Char) →
      List (List (List Char × List Char)) × List (List Char)
  | [] => ([], [])
  | kw :: rest =>
    let (results, failed) := search_keywords proc rest
    match proc kw with
    | some row => (row :: results, failed)
    | none => (results, kw :: failed)

/-! ## Claim C8: the batch partitions its input exactly -/

/-- C8: the batch run processes every keyword and partitions the input
exactly: `results` is the in-order list of rows of the succeeding keywords,
`failed_keywords` the in-order list of original strings of the failing ones,
and their lengths sum to the input length. -/
theorem C8_theorem
    (proc : List Char → Option (List (List Char × List Char))) :
    ∀ kws : List (List Char),
      (search_keywords proc kws).1 = kws.filterMap proc ∧
      (search_keywords proc kws).2 =
        kws.filter (fun kw => (proc kw).isNone) ∧
      (search_keywords proc kws).1.length +
        (search_keywords proc kws).2.length = kws.length
  | [] => by simp [search_keywords]
  | kw :: rest => by
    obtain ⟨h1, h2, h3⟩ := C8_theorem proc rest
    rw [h1, h2] at h3
    cases hp : proc kw with
    | some row =>
      refine ⟨?_, ?_, ?_⟩ <;>
        simp [search_keywords, hp, h1, h2, List.filterMap_cons, List.filter_cons]
      omega
    | none =>
      refine ⟨?_, ?_, ?_⟩ <;>
        simp [search_keywords, hp, h1, h2, List.filterMap_cons, List.filter_cons]
      omega

/-! ## Claim C9: no stats, no bid request -/

theorem fetchLoop_no_reqBid (cfg : ModeConfig) (u : ℕ → StatsResp) :
    ∀ fuel a d, Event.reqBid d ∉ (fetchLoop cfg u a fuel).2 := by
  intro fuel
  induction fuel with
  | zero => intro a d; simp [fetchLoop]
  | succ f ih =>
    intro a d
    have h2 := ih (a + 1) d
    cases hu : u a <;>
      by_cases ha : a > 0 <;>
        simp [fetchLoop, hu, ha, h2]

theorem fetch_keyword_data_no_reqBid (keyword : List Char) (cfg : ModeConfig)
    (u : ℕ → StatsResp) (d : Device) :
    Event.reqBid d ∉ (fetch_keyword_data keyword cfg u).2 := by
  rw [fetch_keyword_data]
  by_cases hkw : clean_keyword keyword = []
  · rw [if_pos hkw]
    simp
  · rw [if_neg hkw]
    exact fetchLoop_no_reqBid cfg u cfg.retry_count 0 d

/-- C9: whenever the stats fetch returns `None`, the processor returns
`None` for that keyword (so the batch classifies it as failed — shown for a
one-element batch) and no bid request is ever issued: the whole trace is the
stats trace, which contains no bid request event. -/
theorem C9_theorem (keyword : List Char) (cfg : ModeConfig)
    (uStats : ℕ → StatsResp) (uBids : Device → BidResp)
    (hstats : (fetch_keyword_data keyword cfg uStats).1 = none) :
    process_single_keyword keyword cfg uStats uBids =
      (none, (fetch_keyword_data keyword cfg uStats).2) ∧
    (∀ d, Event.reqBid d ∉
      (process_single_keyword keyword cfg uStats uBids).2) ∧
    search_keywords
      (fun kw => (process_single_keyword kw cfg uStats uBids).1)
      [keyword] = ([], [keyword]) := by
  have hmain : process_single_keyword keyword cfg uStats uBids =
      (none, (fetch_keyword_data keyword cfg uStats).2) := by
    rw [process_single_keyword.eq_def]
    rcases hsplit : fetch_keyword_data keyword cfg uStats with ⟨kwItem, tStats⟩
    have : kwItem = none := by
      have := congrArg Prod.fst hsplit
      rw [hstats] at this
      exact this.symm
    subst this
    simp [hsplit]
  refine ⟨hmain, fun d => ?_, ?_⟩
  · rw [hmain]
    exact fetch_keyword_data_no_reqBid keyword cfg uStats d
  · rw [search_keywords, search_keywords]
    simp [hmain]

/-- Witness for C9: an upstream whose only answer is 401 produces no stats,
no row and no bid request. -/
theorem C9_witness :
    process_single_keyword "abc".toList (SPEED_MODES 0)
        (fun _ => StatsResp.s401) (fun _ => BidResp.fail) =
      (none, (fetch_keyword_data "abc".toList (SPEED_MODES 0)
        (fun _ => StatsResp.s401)).2) ∧
    (∀ d, Event.reqBid d ∉
      (process_single_keyword "abc".toList (SPEED_MODES 0)
        (fun _ => StatsResp.s401) (fun _ => BidResp.fail)).2) ∧
    search_keywords
      (fun kw => (process_single_keyword kw (SPEED_MODES 0)
        (fun _ => StatsResp.s401) (fun _ => BidResp.fail)).1)
      ["abc".toList] = ([], ["abc".toList]) :=
  C9_theorem "abc".toList (SPEED_MODES 0) (fun _ => StatsResp.s401)
    (fun _ => BidResp.fail) (by decide)

end NaverKeyword
